import Mathlib

/-!
# temaster: catalog client and shuffle session

A shallow embedding of `internal/spotify/client.go` and of the session loop of
`cmd/main.go`, followed by the properties proved about them.

Conventions of the embedding.

* Go strings are Lean strings; `strings.Split`, `strings.HasPrefix` and
  `strings.TrimPrefix` are written out on the character lists.  Every
  separator the program passes to `strings.Split` is one ASCII character.
* A value decoded by `encoding/json` into `interface{}` is a `JSON` tree.  A
  JSON number decodes to a `float64`; the value of that float is kept as a
  rational, and `float64(len(trackLinks))` is the length as a rational (exact
  below 2^53).
* The network is a parameter `Env`: which requests `http.NewRequest` accepts
  and what a round trip answers.  The requests handed to `Do` are recorded, in
  order, in a trace.
* `for { ... }` loops take a fuel argument and report `Outcome.running` when
  the fuel is used up before the loop has left.
-/

namespace Temaster

/-! ## Strings -/

/-- The pieces of a character list between the occurrences of `sep`; the result has one more
piece than there are occurrences, as `strings.Split` with a one-character separator. -/
def splitChars (sep : Char) : List Char → List (List Char)
  | [] => [[]]
  | c :: cs =>
    if c = sep then [] :: splitChars sep cs
    else
      match splitChars sep cs with
      | [] => [[c]]
      | p :: ps => (c :: p) :: ps

/-- Go `strings.Split(s, sep)` for a separator of one character. -/
def Split (s : String) (sep : Char) : List String :=
  (splitChars sep s.data).map String.mk

/-- Go `strings.HasPrefix(s, p)`. -/
def HasPrefix (s p : String) : Bool := p.data.isPrefixOf s.data

/-- Go `strings.TrimPrefix(s, p)`. -/
def TrimPrefix (s p : String) : String :=
  if HasPrefix s p then String.mk (s.data.drop p.data.length) else s

/-- The constant `spotifyWebURL` of client.go. -/
def spotifyWebURL : String := "https://open.spotify.com/"

/-- The page size `limit := 100` of `GetPlaylistTracks`. -/
def limit : Nat := 100

/-- `Client.GetPlaylistID` (client.go 152-157): the last piece between slashes, cut at the
first question mark.  Both slices are non-empty, so neither index can fail. -/
def GetPlaylistID (playlistURL : String) : String :=
  let parts := Split playlistURL '/'
  let playlistID := parts.getLastD ""
  (Split playlistID '?').headD ""

/-- `Client.GetTrackID` (client.go 240-245). -/
def GetTrackID (trackURL : String) : String :=
  let parts := Split trackURL '/'
  let trackID := parts.getLastD ""
  (Split trackID '?').headD ""

/-- `ConvertToSpotifyURI` (client.go 161-171). The `match` is the test `len(parts) >= 2`
together with the reads of `parts[0]` and `parts[1]`. -/
def ConvertToSpotifyURI (url : String) : String :=
  if HasPrefix url spotifyWebURL then
    let path := TrimPrefix url spotifyWebURL
    match Split path '/' with
    | p0 :: p1 :: _ =>
      let trackID := (Split p1 '?').headD ""
      "spotify:" ++ p0 ++ ":" ++ trackID ++ ":play"
    | _ => url
  else url

/-- The reference definition of the playable identifier, following the words of the
specification: after the web prefix, the text before the first slash is the resource type
and the text after it, up to the next slash or question mark, is the resource id. -/
def ConvertToSpotifyURI_spec (u : String) : String :=
  if spotifyWebURL.data <+: u.data then
    let rest := u.data.drop spotifyWebURL.data.length
    if '/' ∈ rest then
      let T := rest.takeWhile (fun c => c ≠ '/')
      let after := (rest.dropWhile (fun c => c ≠ '/')).drop 1
      let I := after.takeWhile (fun c => c ≠ '/' ∧ c ≠ '?')
      "spotify:" ++ String.mk T ++ ":" ++ String.mk I ++ ":play"
    else u
  else u

/-! ## Decoded JSON -/

/-- A value as `json.Unmarshal` stores it in an `interface{}`. -/
inductive JSON where
  | null
  | bool (b : Bool)
  | num (q : ℚ)
  | str (s : String)
  | arr (items : List JSON)
  | obj (fields : List (String × JSON))

/-- A decoded `map[string]interface{}`. -/
abbrev Object := List (String × JSON)

/-- The map read `m[key]`: the nil interface when the key is absent. -/
def index (m : Object) (key : String) : JSON := (m.lookup key).getD JSON.null

/-- The type assertion to `map[string]interface{}`. -/
def JSON.asObject : JSON → Option Object
  | .obj fields => some fields
  | _ => none

/-- The type assertion to `[]interface{}`. -/
def JSON.asArray : JSON → Option (List JSON)
  | .arr items => some items
  | _ => none

/-- The type assertion to `string`. -/
def JSON.asString : JSON → Option String
  | .str s => some s
  | _ => none

/-- The type assertion to `float64`. -/
def JSON.asNumber : JSON → Option ℚ
  | .num q => some q
  | _ => none

/-! ## Client, network and outcomes -/

/-- The fields of `Client` that the operations read or write. -/
structure Client where
  clientID : String
  clientSecret : String
  accessToken : String
deriving DecidableEq, Repr

/-- The three requests the client sends. -/
inductive Request where
  /-- POST to `authURL` with basic auth. -/
  | token (clientID clientSecret : String)
  /-- GET of `playlistURL` filled with the id, the limit and the offset. -/
  | playlistPage (playlistID : String) (lim offset : Nat) (bearer : String)
  /-- GET of `trackURL` filled with the id. -/
  | track (trackID : String) (bearer : String)
deriving DecidableEq, Repr

/-- What `Do`, `io.ReadAll` and `json.Unmarshal` into a map make of one round trip:
the transport failed, or a body arrived, `readFailed` says whether reading it failed and
`decoded` is the result of unmarshalling the bytes read (`none` when that fails). -/
inductive Response where
  | transportErr
  | body (readFailed : Bool) (decoded : Option Object)

/-- The world outside the client. -/
structure Env where
  /-- Whether `http.NewRequest` builds the request. -/
  canBuild : Request → Bool
  /-- The answer to a request. -/
  roundTrip : Request → Response

/-- The errors the client returns, one per message of client.go. -/
inductive Err where
  | invalidURLFormat
  | refreshFailed (cause : Err)
  | invalidPlaylistID
  | createRequest
  | getToken
  | readBody
  | parseToken
  | noAccessToken
  | getPlaylist
  | parsePlaylist
deriving DecidableEq, Repr

/-- How a call ends. -/
inductive Outcome (α : Type) where
  /-- Returned a value and a nil error. -/
  | ok (a : α)
  /-- Returned a non-nil error. -/
  | error (e : Err)
  /-- A run-time panic: a failed single-value type assertion. -/
  | panic
  /-- The call `log.Fatalf`, which exits the process. -/
  | fatal
  /-- Still inside its loop when the fuel ran out. -/
  | running
deriving DecidableEq, Repr

/-- `Client.refreshAccessToken` (client.go 51-84). Returns the error (`none` for nil), the
client afterwards and the trace extended by the request sent. -/
def refreshAccessToken (env : Env) (c : Client) (log : List Request) :
    Option Err × Client × List Request :=
  let req := Request.token c.clientID c.clientSecret
  if !env.canBuild req then (some Err.createRequest, c, log)
  else
    match env.roundTrip req with
    | .transportErr => (some Err.getToken, c, log ++ [req])
    | .body readFailed decoded =>
      if readFailed then (some Err.readBody, c, log ++ [req])
      else
        match decoded with
        | none => (some Err.parseToken, c, log ++ [req])
        | some result =>
          match (index result "access_token").asString with
          | none => (some Err.noAccessToken, c, log ++ [req])
          | some token => (none, { c with accessToken := token }, log ++ [req])

/-- One pass of the body of the loop over `items` (client.go 134-138). `none` is a panic:
the assertions on `item` and on `track["external_urls"]` are single-valued, the ones on
`["track"]` and `["spotify"]` are the comma-ok form. -/
def appendItem (trackLinks : List String) (item : JSON) : Option (List String) :=
  match item.asObject with
  | none => none
  | some m =>
    match (index m "track").asObject with
    | none => some trackLinks
    | some track =>
      match (index track "external_urls").asObject with
      | none => none
      | some urls =>
        match (index urls "spotify").asString with
        | some url => some (trackLinks ++ [url])
        | none => some trackLinks

/-- The loop `for _, item := range items` (client.go 133-139). -/
def appendItems : List String → List JSON → Option (List String)
  | trackLinks, [] => some trackLinks
  | trackLinks, item :: rest =>
    match appendItem trackLinks item with
    | none => none
    | some trackLinks1 => appendItems trackLinks1 rest

/-- Lines 130-140 of client.go on one decoded page: the declared total (0 when absent or not
a number) and the links after the page's items were appended. -/
def readPage (trackLinks : List String) (result : Object) : ℚ × Option (List String) :=
  let total := ((index result "total").asNumber).getD 0
  match (index result "items").asArray with
  | some items => (total, appendItems trackLinks items)
  | none => (total, some trackLinks)

/-- The loop of `GetPlaylistTracks` (client.go 106-147), from the state `offset`,
`trackLinks`. -/
def pageLoop (env : Env) (c : Client) (playlistID : String) :
    Nat → Nat → List String → List Request → Outcome (List String) × List Request
  | 0, _, _, log => (Outcome.running, log)
  | fuel + 1, offset, trackLinks, log =>
    let req := Request.playlistPage playlistID limit offset c.accessToken
    if !env.canBuild req then (Outcome.error Err.createRequest, log)
    else
      match env.roundTrip req with
      | .transportErr => (Outcome.error Err.getPlaylist, log ++ [req])
      | .body readFailed decoded =>
        if readFailed then (Outcome.error Err.readBody, log ++ [req])
        else
          match decoded with
          | none => (Outcome.error Err.parsePlaylist, log ++ [req])
          | some result =>
            match readPage trackLinks result with
            | (_, none) => (Outcome.panic, log ++ [req])
            | (total, some trackLinks1) =>
              if (trackLinks1.length : ℚ) ≥ total then (Outcome.ok trackLinks1, log ++ [req])
              else pageLoop env c playlistID fuel (offset + limit) trackLinks1 (log ++ [req])

/-- `Client.GetPlaylistTracks` (client.go 87-150): the outcome, the client afterwards and
the trace of the requests sent. -/
def GetPlaylistTracks (env : Env) (fuel : Nat) (c : Client) (rawURL : String) :
    Outcome (List String) × Client × List Request :=
  if !HasPrefix rawURL spotifyWebURL then (Outcome.error Err.invalidURLFormat, c, [])
  else
    match (if c.accessToken = "" then refreshAccessToken env c [] else (none, c, [])) with
    | (some e, c1, log1) => (Outcome.error (Err.refreshFailed e), c1, log1)
    | (none, c1, log1) =>
      let playlistID := GetPlaylistID rawURL
      if playlistID = "" then (Outcome.error Err.invalidPlaylistID, c1, log1)
      else
        match pageLoop env c1 playlistID fuel 0 [] log1 with
        | (out, log2) => (out, c1, log2)

/-- The offsets of the page requests of a trace, in order. -/
def pageOffsets (log : List Request) : List Nat :=
  log.filterMap fun r =>
    match r with
    | .playlistPage _ _ offset _ => some offset
    | _ => none

/-- The struct `TrackInfo` of client.go. -/
structure TrackInfo where
  Name : String
  Artists : List String
  Year : String
deriving DecidableEq, Repr

/-- The loop over `artistsData` (client.go 214-220). -/
def artistNames : List JSON → List String
  | [] => []
  | artist :: rest =>
    match artist.asObject with
    | some artistMap =>
      match (index artistMap "name").asString with
      | some artistName => artistName :: artistNames rest
      | none => artistNames rest
    | none => artistNames rest

/-- The year read from a decoded track (client.go 224-230). -/
def releaseYear (result : Object) : String :=
  match (index result "album").asObject with
  | some album =>
    match (index album "release_date").asString with
    | some releaseDate => (Split releaseDate '-').headD ""
    | none => ""
  | none => ""

/-- Lines 208-236 of client.go: the `TrackInfo` built from a decoded track. -/
def decodeTrackInfo (result : Object) : TrackInfo :=
  { Name := ((index result "name").asString).getD ""
    Artists :=
      match (index result "artists").asArray with
      | some artistsData => artistNames artistsData
      | none => []
    Year := releaseYear result }

/-- `Client.GetTrackInfo` (client.go 174-237). Every failure branch calls `log.Fatalf`
before its `return`; the error of `io.ReadAll` is dropped. -/
def GetTrackInfo (env : Env) (c : Client) (rawURL : String) :
    Outcome TrackInfo × Client × List Request :=
  match (if c.accessToken = "" then refreshAccessToken env c [] else (none, c, [])) with
  | (some _, c1, log1) => (Outcome.fatal, c1, log1)
  | (none, c1, log1) =>
    let trackID := GetTrackID rawURL
    let req := Request.track trackID c1.accessToken
    if !env.canBuild req then (Outcome.fatal, c1, log1)
    else
      match env.roundTrip req with
      | .transportErr => (Outcome.fatal, c1, log1 ++ [req])
      | .body _ decoded =>
        match decoded with
        | none => (Outcome.fatal, c1, log1 ++ [req])
        | some result => (Outcome.ok (decodeTrackInfo result), c1, log1 ++ [req])

/-! ## The session loop of main -/

/-- The variables `playedTracks` (the keys of the map, newest first; a key is only ever
stored with the value true) and `remainingTracks` of main. -/
structure Session where
  played : List String
  remaining : Int
deriving DecidableEq, Repr

/-- The state before the loop (main.go 67-68). -/
def Session.start (tracks : List String) : Session :=
  { played := [], remaining := tracks.length }

/-- How one pass through lines 81-101 of main.go ends. -/
inductive Step where
  /-- The branch `remainingTracks == 0`: "No more songs to play!". -/
  | noMoreSongs
  /-- The sampling loop left with this track; the state and the unused random indices. -/
  | drew (track : String) (st : Session) (rest : List Nat)
  /-- The sampling loop used every random index given and has not left. -/
  | sampling
  /-- An index outside the track list. -/
  | indexOutOfRange
deriving DecidableEq, Repr

/-- The sampling loop (main.go 88-101) fed with the indices `rand.Int` returns. -/
def sample (tracks : List String) (st : Session) : List Nat → Step
  | [] => Step.sampling
  | randomIndex :: rest =>
    match tracks[randomIndex]? with
    | none => Step.indexOutOfRange
    | some track =>
      if track ∈ st.played then sample tracks st rest
      else Step.drew track { played := track :: st.played, remaining := st.remaining - 1 } rest

/-- One request of the session (main.go 81-101), the user not having typed exit. -/
def drawNext (tracks : List String) (st : Session) (rnd : List Nat) : Step :=
  if st.remaining = 0 then Step.noMoreSongs else sample tracks st rnd

/-- The first `n` requests of a session: the tracks drawn, in order, the state and the
unused random indices; `none` when one of them does not draw. -/
def drawMany (tracks : List String) : Nat → Session → List Nat →
    Option (List String × Session × List Nat)
  | 0, st, rnd => some ([], st, rnd)
  | n + 1, st, rnd =>
    match drawNext tracks st rnd with
    | Step.drew track st1 rest =>
      match drawMany tracks n st1 rest with
      | some (drawn, st2, rest2) => some (track :: drawn, st2, rest2)
      | none => none
    | _ => none

/-- How the first `n` requests of a session end, one step per request, in order; the
session is followed as long as the requests draw, and the first request that does not
draw ends the list. -/
def requests (tracks : List String) : Nat → Session → List Nat → List Step
  | 0, _, _ => []
  | n + 1, st, rnd =>
    match drawNext tracks st rnd with
    | Step.drew track st1 rest => Step.drew track st1 rest :: requests tracks n st1 rest
    | Step.noMoreSongs => [Step.noMoreSongs]
    | Step.sampling => [Step.sampling]
    | Step.indexOutOfRange => [Step.indexOutOfRange]

/-! ## Servers and entries for the concrete runs -/

/-- A playlist entry carrying the URL `url`. -/
def trackEntry (url : String) : JSON :=
  JSON.obj [("track", JSON.obj [("external_urls", JSON.obj [("spotify", JSON.str url)])])]

/-- A server with a stable playlist of the given entries: a page request is answered with
the total and the entries from the offset on, at most `lim` of them; a token request with
the token "tok"; a track request with an empty object. Every request can be built. -/
def stableServer (entries : List JSON) : Env where
  canBuild := fun _ => true
  roundTrip := fun req =>
    match req with
    | .token _ _ => Response.body false (some [("access_token", JSON.str "tok")])
    | .playlistPage _ lim offset _ =>
      Response.body false
        (some [("total", JSON.num entries.length),
          ("items", JSON.arr ((entries.drop offset).take lim))])
    | .track _ _ => Response.body false (some [])

/-- A network on which every transport fails. -/
def deadNetwork : Env where
  canBuild := fun _ => true
  roundTrip := fun _ => Response.transportErr

/-- A server that answers every request with the decoded object given. -/
def albumServer (result : Object) : Env where
  canBuild := fun _ => true
  roundTrip := fun _ => Response.body false (some result)

/-- A network whose requests cannot be built. -/
def unbuildable : Env where
  canBuild := fun _ => false
  roundTrip := fun _ => Response.transportErr

/-- A network whose bodies are not JSON. -/
def garbledNetwork : Env where
  canBuild := fun _ => true
  roundTrip := fun _ => Response.body false none

/-! ## Predicates and devices of the statements -/

/-- The links held after `k` pages, page `j` having appended `pages j`. -/
def linksAfter (pages : Nat → List String) : Nat → List String
  | 0 => []
  | k + 1 => linksAfter pages k ++ pages k

/-- The `k`-th page request of a run. -/
def pageRequest (c : Client) (playlistID : String) (k : Nat) : Request :=
  Request.playlistPage playlistID limit (limit * k) c.accessToken

/-- Every page request of the run can be built and is answered with the total `T` and
with items that append `pages k` to the links. -/
def Answers (env : Env) (c : Client) (playlistID : String) (T : ℚ)
    (pages : Nat → List String) : Prop :=
  ∀ k, env.canBuild (pageRequest c playlistID k) = true ∧
    ∃ result, env.roundTrip (pageRequest c playlistID k) = Response.body false (some result) ∧
      ∀ acc, readPage acc result = (T, some (acc ++ pages k))

/-- The entry carries the string `url` at `track.external_urls.spotify`. -/
def CarriesURL (item : JSON) (url : String) : Prop :=
  ∃ m track urls, item = JSON.obj m ∧ index m "track" = JSON.obj track ∧
    index track "external_urls" = JSON.obj urls ∧ index urls "spotify" = JSON.str url

/-- A well-behaved server holding the tracks `urls` under `playlistID`: a page request with
the limit 100 and any offset can be built and is answered with a decoded object whose
`total` is the number of tracks and whose `items` carry the URLs from the offset on, at
most 100 of them. -/
def ServesPlaylist (env : Env) (playlistID : String) (urls : List String) : Prop :=
  ∀ (offset : Nat) (bearer : String),
    env.canBuild (Request.playlistPage playlistID limit offset bearer) = true ∧
      ∃ (result : Object) (items : List JSON),
        env.roundTrip (Request.playlistPage playlistID limit offset bearer)
          = Response.body false (some result) ∧
        index result "total" = JSON.num urls.length ∧
        index result "items" = JSON.arr items ∧
        List.Forall₂ CarriesURL items ((urls.drop offset).take limit)

/-- What holds of the session variables between requests. -/
def SessionInv (tracks : List String) (st : Session) : Prop :=
  st.played.Nodup ∧ (∀ t ∈ st.played, t ∈ tracks) ∧
    st.remaining = (tracks.length : Int) - st.played.length

/-- The links a list of entries contributes; the empty list when the loop panics. -/
def linksOf (items : List JSON) : List String := (appendItems [] items).getD []

/-! # Theorems -/

/-! ## Lemmas on splitting -/

theorem splitChars_ne_nil (sep : Char) (s : List Char) : splitChars sep s ≠ [] := by
  cases s with
  | nil => simp [splitChars]
  | cons c cs =>
    rw [splitChars]
    split
    · simp
    · split <;> simp

theorem splitChars_sep_cons (sep : Char) (cs : List Char) :
    splitChars sep (sep :: cs) = [] :: splitChars sep cs := by
  rw [splitChars, if_pos rfl]

theorem splitChars_cons_of_ne (sep c : Char) (cs : List Char) (h : c ≠ sep) :
    splitChars sep (c :: cs) =
      (c :: (splitChars sep cs).headD []) :: (splitChars sep cs).tail := by
  rw [splitChars, if_neg h]
  cases hb : splitChars sep cs with
  | nil => exact absurd hb (splitChars_ne_nil sep cs)
  | cons p ps => simp

theorem splitChars_eq_cons (sep : Char) (s : List Char) :
    splitChars sep s =
      s.takeWhile (fun c => c ≠ sep) ::
        (if sep ∈ s then splitChars sep ((s.dropWhile (fun c => c ≠ sep)).drop 1) else []) := by
  induction s with
  | nil => simp [splitChars]
  | cons c cs ih =>
    by_cases h : c = sep
    · subst h
      rw [splitChars_sep_cons]
      simp
    · have h2 : ¬ sep = c := fun e => h e.symm
      rw [splitChars_cons_of_ne sep c cs h, ih]
      simp [h, h2]

theorem splitChars_of_not_mem (sep : Char) (s : List Char) (h : sep ∉ s) :
    splitChars sep s = [s] := by
  rw [splitChars_eq_cons, if_neg h]
  congr 1
  rw [List.takeWhile_eq_self_iff]
  intro c hc
  have : c ≠ sep := fun e => h (e ▸ hc)
  simpa using this

theorem getLastD_cons_of_ne_nil (x : List Char) (l : List (List Char)) (h : l ≠ []) :
    (x :: l).getLastD [] = l.getLastD [] := by
  cases l with
  | nil => exact absurd rfl h
  | cons y ys => simp [List.getLastD]

theorem splitChars_getLastD_append (sep : Char) (a b : List Char) :
    (splitChars sep (a ++ sep :: b)).getLastD [] = (splitChars sep b).getLastD [] := by
  induction a with
  | nil =>
    rw [List.nil_append, splitChars_sep_cons,
      getLastD_cons_of_ne_nil _ _ (splitChars_ne_nil sep b)]
  | cons c cs ih =>
    rw [List.cons_append, ← ih]
    by_cases h : c = sep
    · subst h
      rw [splitChars_sep_cons, getLastD_cons_of_ne_nil _ _ (splitChars_ne_nil _ _)]
    · rw [splitChars_cons_of_ne sep c _ h]
      have hq : (splitChars sep (cs ++ sep :: b)).tail ≠ [] := by
        rw [splitChars_eq_cons, if_pos (by simp)]
        exact splitChars_ne_nil sep _
      rw [getLastD_cons_of_ne_nil _ _ hq]
      cases hb : splitChars sep (cs ++ sep :: b) with
      | nil => exact absurd hb (splitChars_ne_nil sep _)
      | cons p ps =>
        rw [hb] at hq
        exact (getLastD_cons_of_ne_nil p ps hq).symm

theorem takeWhile_takeWhile (p q : Char → Bool) (l : List Char) :
    (l.takeWhile q).takeWhile p = l.takeWhile (fun c => q c && p c) := by
  induction l with
  | nil => simp
  | cons c cs ih =>
    by_cases hq : q c <;> by_cases hp : p c <;> simp [List.takeWhile, hq, hp, ih]

/-! ## The playable identifier -/

theorem Split_eq_cons (s : String) (sep : Char) :
    Split s sep =
      String.mk (s.data.takeWhile (fun c => c ≠ sep)) ::
        (if sep ∈ s.data then
          Split (String.mk ((s.data.dropWhile (fun c => c ≠ sep)).drop 1)) sep
        else []) := by
  rw [Split, splitChars_eq_cons]
  by_cases h : sep ∈ s.data
  · simp only [if_pos h, List.map_cons, Split]
  · simp only [if_neg h, List.map_cons, List.map_nil]

theorem Split_headD (s : String) (sep : Char) :
    (Split s sep).headD "" = String.mk (s.data.takeWhile (fun c => c ≠ sep)) := by
  rw [Split_eq_cons]
  rfl

theorem getLastD_map_mk (l : List (List Char)) (d : List Char) :
    (l.map String.mk).getLastD (String.mk d) = String.mk (l.getLastD d) := by
  induction l generalizing d with
  | nil => rfl
  | cons x xs ih =>
    rw [List.map_cons, List.getLastD_cons, List.getLastD_cons]
    exact ih x

theorem Split_getLastD (s : String) (sep : Char) :
    (Split s sep).getLastD "" = String.mk ((splitChars sep s.data).getLastD []) :=
  getLastD_map_mk _ []

theorem HasPrefix_iff_data (s p : String) : HasPrefix s p = true ↔ p.data <+: s.data := by
  rw [HasPrefix]
  exact List.isPrefixOf_iff_prefix

/-- C3. `ConvertToSpotifyURI` agrees with the reference definition on every string, and
maps the example of the specification to `spotify:track:abc123:play`. -/
theorem ConvertToSpotifyURI_eq_spec :
    (∀ u : String, ConvertToSpotifyURI u = ConvertToSpotifyURI_spec u) ∧
      ConvertToSpotifyURI "https://open.spotify.com/track/abc123?si=xyz"
        = "spotify:track:abc123:play" := by
  refine ⟨fun u => ?_, by decide⟩
  unfold ConvertToSpotifyURI ConvertToSpotifyURI_spec
  by_cases hp : spotifyWebURL.data <+: u.data
  · have hb : HasPrefix u spotifyWebURL = true := (HasPrefix_iff_data _ _).mpr hp
    rw [if_pos hb, if_pos hp]
    simp only [TrimPrefix, if_pos hb]
    by_cases hs : '/' ∈ u.data.drop spotifyWebURL.data.length
    · rw [if_pos hs, Split_eq_cons, if_pos hs, Split_eq_cons (String.mk (List.drop 1 _))]
      simp only [Split_headD, takeWhile_takeWhile]
      simp
    · rw [if_neg hs, Split_eq_cons, if_neg hs]
  · have hb : ¬ HasPrefix u spotifyWebURL = true :=
      fun h => hp ((HasPrefix_iff_data _ _).mp h)
    rw [if_neg hb, if_neg hp]

/-! ## Resource ids -/

theorem lastSegment_id (base tail : List Char) (id : String) (ht : '/' ∉ tail)
    (hw : tail.takeWhile (fun c => c ≠ '?') = id.data) :
    (Split ((Split (String.mk (base ++ '/' :: tail)) '/').getLastD "") '?').headD "" = id := by
  rw [Split_getLastD, Split_headD]
  simp only [splitChars_getLastD_append, splitChars_of_not_mem _ _ ht, List.getLastD_cons,
    List.getLastD_nil, hw]

theorem takeWhile_append_sep (a b : List Char) (sep : Char) (h : sep ∉ a) :
    (a ++ sep :: b).takeWhile (fun c => c ≠ sep) = a := by
  induction a with
  | nil => simp
  | cons c cs ih =>
    have h1 : c ≠ sep := fun e => h (by simp [e])
    have h2 : sep ∉ cs := fun e => h (by simp [e])
    have := ih h2
    simp only [ne_eq, decide_not] at this
    simp [List.takeWhile, h1, this]

/-- Where the query holds no slash, the id of `base/id?query` is `id`; so is the id of
`base/id`. -/
theorem resourceID_of_query_without_slash (base id query : String)
    (hid1 : '/' ∉ id.data) (hid2 : '?' ∉ id.data) (hq : '/' ∉ query.data) :
    GetPlaylistID (base ++ "/" ++ id ++ "?" ++ query) = id ∧
      GetTrackID (base ++ "/" ++ id ++ "?" ++ query) = id ∧
      GetPlaylistID (base ++ "/" ++ id) = id ∧ GetTrackID (base ++ "/" ++ id) = id := by
  have e1 : base ++ "/" ++ id ++ "?" ++ query
      = String.mk (base.data ++ '/' :: (id.data ++ '?' :: query.data)) := by
    apply String.ext; simp [String.data_append]
  have e2 : base ++ "/" ++ id = String.mk (base.data ++ '/' :: id.data) := by
    apply String.ext; simp [String.data_append]
  have k1 := lastSegment_id base.data (id.data ++ '?' :: query.data) id
    (by simp [hid1, hq]) (takeWhile_append_sep _ _ _ hid2)
  have k2 := lastSegment_id base.data id.data id hid1
    (by
      rw [List.takeWhile_eq_self_iff]
      intro c hc
      have : c ≠ '?' := fun e => hid2 (e ▸ hc)
      simpa using this)
  rw [e1, e2]
  exact ⟨k1, k1, k2, k2⟩

/-- C4. A reference `base/id?query` whose query holds a slash: both extractions return the
text after the last slash of the query, `b`, not the id, while `ConvertToSpotifyURI`
reads the id `abc` from the same track reference. -/
theorem resourceID_query_with_slash :
    GetPlaylistID ("https://open.spotify.com/playlist" ++ "/" ++ "PID" ++ "?" ++ "x=a/b") = "b" ∧
      GetTrackID ("https://open.spotify.com/track" ++ "/" ++ "abc" ++ "?" ++ "si=a/b") = "b" ∧
      ConvertToSpotifyURI ("https://open.spotify.com/track" ++ "/" ++ "abc" ++ "?" ++ "si=a/b")
        = "spotify:track:abc:play" ∧
      GetPlaylistID "https://service/playlists/PID?foo=bar" = "PID" := by
  decide

/-! ## Track metadata -/

theorem ne_dash_of_isDigit (c : Char) (h : c.isDigit = true) : c ≠ '-' := by
  intro e
  subst e
  exact absurd h (by decide)

theorem takeWhile_date (l rest : List Char) (y1 y2 y3 y4 : Char)
    (h1 : y1 ≠ '-') (h2 : y2 ≠ '-') (h3 : y3 ≠ '-') (h4 : y4 ≠ '-')
    (hp : l <+: y1 :: y2 :: y3 :: y4 :: '-' :: rest) :
    l.takeWhile (fun c => c ≠ '-') = l.take 4 := by
  rcases l with _ | ⟨a, _ | ⟨b, _ | ⟨c, _ | ⟨d, _ | ⟨e, l⟩⟩⟩⟩⟩ <;>
    (try simp only [List.cons_prefix_cons] at hp) <;>
    simp_all [List.takeWhile]

theorem GetTrackInfo_of_response (env : Env) (c : Client) (rawURL : String)
    (readFailed : Bool) (result : Object)
    (htok : c.accessToken ≠ "" ∨ (refreshAccessToken env c []).1 = none)
    (hbuild : ∀ bearer, env.canBuild (Request.track (GetTrackID rawURL) bearer) = true)
    (hresp : ∀ bearer, env.roundTrip (Request.track (GetTrackID rawURL) bearer)
      = Response.body readFailed (some result)) :
    (GetTrackInfo env c rawURL).1 = Outcome.ok (decodeTrackInfo result) := by
  have key : ∀ (c1 : Client) (log1 : List Request),
      (if c.accessToken = "" then refreshAccessToken env c [] else (none, c, []))
        = (none, c1, log1) →
      (GetTrackInfo env c rawURL).1 = Outcome.ok (decodeTrackInfo result) := by
    intro c1 log1 hc1
    rw [GetTrackInfo]
    simp only [hc1, hbuild, hresp, Bool.not_true, Bool.false_eq_true, if_false]
  by_cases ht : c.accessToken = ""
  · have hr : (refreshAccessToken env c []).1 = none := htok.resolve_left (fun h => h ht)
    refine key (refreshAccessToken env c []).2.1 (refreshAccessToken env c []).2.2 ?_
    rw [if_pos ht, ← hr]
  · exact key c [] (by rw [if_neg ht])

/-- C8. When the single-track request is answered with a decoded object (the client holding
a token or obtaining one), `GetTrackInfo` succeeds, and the `Year` it returns is the first
`min 4 length` characters of `album.release_date` whenever that is a string that is a
prefix of a date `YYYY-MM-DD` of digits, so the four digits of the year once the string has
four characters; `Year` is empty when `album` is not an object or `release_date` is not a
string (a missing key reads as null). -/
theorem year_of_release_date (env : Env) (c : Client) (rawURL : String)
    (readFailed : Bool) (result : Object)
    (htok : c.accessToken ≠ "" ∨ (refreshAccessToken env c []).1 = none)
    (hbuild : ∀ bearer, env.canBuild (Request.track (GetTrackID rawURL) bearer) = true)
    (hresp : ∀ bearer, env.roundTrip (Request.track (GetTrackID rawURL) bearer)
      = Response.body readFailed (some result)) :
    ∃ info : TrackInfo, (GetTrackInfo env c rawURL).1 = Outcome.ok info ∧
      (∀ (album : Object) (releaseDate : String) (y1 y2 y3 y4 m1 m2 d1 d2 : Char),
        index result "album" = JSON.obj album →
        index album "release_date" = JSON.str releaseDate →
        y1.isDigit = true → y2.isDigit = true → y3.isDigit = true → y4.isDigit = true →
        m1.isDigit = true → m2.isDigit = true → d1.isDigit = true → d2.isDigit = true →
        releaseDate.data <+: [y1, y2, y3, y4, '-', m1, m2, '-', d1, d2] →
        info.Year = String.mk (releaseDate.data.take 4) ∧
          info.Year.length = min 4 releaseDate.length ∧
          (4 ≤ releaseDate.length → info.Year = String.mk [y1, y2, y3, y4])) ∧
      ((index result "album").asObject = none → info.Year = "") ∧
      (∀ album : Object, index result "album" = JSON.obj album →
        (index album "release_date").asString = none → info.Year = "") := by
  refine ⟨decodeTrackInfo result,
    GetTrackInfo_of_response env c rawURL readFailed result htok hbuild hresp, ?_, ?_, ?_⟩
  · intro album releaseDate y1 y2 y3 y4 m1 m2 d1 d2 ha hd e1 e2 e3 e4 _ _ _ _ hp
    have hy : (decodeTrackInfo result).Year = String.mk (releaseDate.data.take 4) := by
      simp only [decodeTrackInfo, releaseYear, ha, hd, JSON.asObject, JSON.asString,
        Split_headD]
      rw [takeWhile_date _ _ y1 y2 y3 y4 (ne_dash_of_isDigit _ e1) (ne_dash_of_isDigit _ e2)
        (ne_dash_of_isDigit _ e3) (ne_dash_of_isDigit _ e4) hp]
    refine ⟨hy, ?_, ?_⟩
    · rw [hy]
      show (releaseDate.data.take 4).length = min 4 releaseDate.data.length
      exact List.length_take 4 releaseDate.data
    · intro hlen
      rw [hy]
      congr 1
      obtain ⟨t, ht⟩ := hp
      have h4 : 4 ≤ releaseDate.data.length := hlen
      have := congrArg (List.take 4) ht
      rw [List.take_append_of_le_length h4] at this
      simpa using this
  · intro h
    simp [decodeTrackInfo, releaseYear, h]
  · intro album ha h
    simp [decodeTrackInfo, releaseYear, ha, h, JSON.asObject]

/-- The witness of C8. -/
theorem year_of_release_date_witness :
    (Client.mk "id" "secret" "tok").accessToken ≠ "" ∧
      ∃ info : TrackInfo,
        (GetTrackInfo (albumServer [("album", JSON.obj [("release_date", JSON.str "1999-12-31")])])
          (Client.mk "id" "secret" "tok") "https://open.spotify.com/track/abc").1
            = Outcome.ok info ∧ info.Year = "1999" := by
  refine ⟨by decide, ?_⟩
  obtain ⟨info, h1, h2, _, _⟩ :=
    year_of_release_date
      (albumServer [("album", JSON.obj [("release_date", JSON.str "1999-12-31")])])
      (Client.mk "id" "secret" "tok") "https://open.spotify.com/track/abc" false
      [("album", JSON.obj [("release_date", JSON.str "1999-12-31")])] (Or.inl (by decide))
      (fun _ => rfl) (fun _ => rfl)
  exact ⟨info, h1,
    (h2 [("release_date", JSON.str "1999-12-31")] "1999-12-31" '1' '9' '9' '9' '1' '2' '3' '1'
      rfl rfl rfl rfl rfl rfl rfl rfl rfl rfl ⟨[], rfl⟩).2.2 (by decide)⟩

/-! ## Validation before the network -/

theorem HasPrefix_iff (s p : String) :
    HasPrefix s p = true ↔ ∃ rest : String, s = p ++ rest := by
  rw [HasPrefix_iff_data]
  constructor
  · rintro ⟨t, ht⟩
    exact ⟨String.mk t, String.ext (by simp [String.data_append, ht])⟩
  · rintro ⟨rest, rfl⟩
    exact ⟨rest.data, by simp [String.data_append]⟩

/-- C7. A reference that does not start with the web prefix: `GetPlaylistTracks` returns
the invalid-URL error, the trace of requests is empty and the client is unchanged, whatever
the client, the network and the fuel. -/
theorem GetPlaylistTracks_rejects_foreign_url (env : Env) (fuel : Nat) (c : Client)
    (rawURL : String)
    (h : ¬ ∃ rest : String, rawURL = spotifyWebURL ++ rest) :
    GetPlaylistTracks env fuel c rawURL = (Outcome.error Err.invalidURLFormat, c, []) := by
  have hb : HasPrefix rawURL spotifyWebURL = false := by
    cases hp : HasPrefix rawURL spotifyWebURL with
    | false => rfl
    | true => exact absurd ((HasPrefix_iff _ _).mp hp) h
  simp [GetPlaylistTracks, hb]

theorem GetPlaylistTracks_rejects_foreign_url_witness :
    (¬ ∃ rest : String, "http://open.spotify.com/playlist/PID" = spotifyWebURL ++ rest) ∧
      GetPlaylistTracks deadNetwork 7 (Client.mk "id" "secret" "")
        "http://open.spotify.com/playlist/PID"
        = (Outcome.error Err.invalidURLFormat, Client.mk "id" "secret" "", []) :=
  ⟨fun h => absurd ((HasPrefix_iff _ _).mpr h) (by decide),
    GetPlaylistTracks_rejects_foreign_url deadNetwork 7 (Client.mk "id" "secret" "")
      "http://open.spotify.com/playlist/PID"
      (fun h => absurd ((HasPrefix_iff _ _).mpr h) (by decide))⟩

/-! ## Failures of GetTrackInfo -/

/-- No run of `GetTrackInfo` returns an error: it returns a `TrackInfo` or exits. -/
theorem GetTrackInfo_ok_or_fatal (env : Env) (c : Client) (rawURL : String) :
    (∃ info, (GetTrackInfo env c rawURL).1 = Outcome.ok info) ∨
      (GetTrackInfo env c rawURL).1 = Outcome.fatal := by
  unfold GetTrackInfo
  split
  · exact Or.inr rfl
  · dsimp only
    split
    · exact Or.inr rfl
    · split
      · exact Or.inr rfl
      · split
        · exact Or.inr rfl
        · exact Or.inl ⟨_, rfl⟩

/-- C9. The four failures of `GetTrackInfo` end in `log.Fatalf`, not in a returned error:
a failed token exchange, a request that cannot be built, a failed transport, a body that
is not JSON. -/
theorem GetTrackInfo_failure_exits :
    (GetTrackInfo deadNetwork (Client.mk "id" "secret" "")
        "https://open.spotify.com/track/abc").1 = Outcome.fatal ∧
      (GetTrackInfo unbuildable (Client.mk "id" "secret" "tok")
        "https://open.spotify.com/track/abc").1 = Outcome.fatal ∧
      (GetTrackInfo deadNetwork (Client.mk "id" "secret" "tok")
        "https://open.spotify.com/track/abc").1 = Outcome.fatal ∧
      (GetTrackInfo garbledNetwork (Client.mk "id" "secret" "tok")
        "https://open.spotify.com/track/abc").1 = Outcome.fatal := by
  decide

/-! ## Entries of a page -/

/-- C6. Page entries on which the loop over `items` panics instead of skipping: an entry
that is not an object (null, a string), a track without `external_urls`, a track whose
`external_urls` is not an object; the whole call then panics. Entries whose `track` is
missing or null, or whose `external_urls` has no string `spotify`, are skipped. -/
theorem appendItems_panics :
    appendItems [] [JSON.null] = none ∧
      appendItems [] [JSON.str "x"] = none ∧
      appendItems [] [JSON.obj [("track", JSON.obj [])]] = none ∧
      appendItems [] [JSON.obj [("track", JSON.obj [("external_urls", JSON.str "x")])]] = none ∧
      (GetPlaylistTracks (stableServer [trackEntry "u", JSON.obj [("track", JSON.obj [])]]) 1
        (Client.mk "id" "secret" "tok") "https://open.spotify.com/playlist/PID").1
          = Outcome.panic ∧
      appendItems [] [JSON.obj [], JSON.obj [("track", JSON.null)],
        JSON.obj [("track", JSON.obj [("external_urls", JSON.obj [])])], trackEntry "u"]
          = some ["u"] := by
  decide

/-! ## Pagination with skipped entries -/

theorem pageLoop_skipped_entry (c : Client) (playlistID : String) (fuel offset : Nat)
    (log : List Request) :
    (pageLoop (stableServer [JSON.obj [("track", JSON.null)]]) c playlistID fuel offset [] log).1
      = Outcome.running := by
  induction fuel generalizing offset log with
  | zero => rfl
  | succ n ih =>
    have hitems : appendItems []
        ((([JSON.obj [("track", JSON.null)]] : List JSON).drop offset).take limit) = some [] := by
      cases offset with
      | zero => rfl
      | succ k => simp [appendItems]
    rw [pageLoop]
    simp only [stableServer, readPage, index, List.lookup, JSON.asNumber, JSON.asArray]
    simp [hitems]
    exact ih _ _

/-- C5. A stable server declaring a total of 1 whose one entry has a null track (so K = 1):
for every amount of fuel the loop of `GetPlaylistTracks` is still running, it never
returns. -/
theorem GetPlaylistTracks_skipped_entry_never_returns (fuel : Nat) :
    (GetPlaylistTracks (stableServer [JSON.obj [("track", JSON.null)]]) fuel
      (Client.mk "id" "secret" "tok") "https://open.spotify.com/playlist/PID").1
        = Outcome.running := by
  have hp : HasPrefix "https://open.spotify.com/playlist/PID" spotifyWebURL = true := by decide
  have hid : GetPlaylistID "https://open.spotify.com/playlist/PID" = "PID" := by decide
  simp only [GetPlaylistTracks, hp, hid]
  simp
  exact pageLoop_skipped_entry _ _ _ _ _

/-! ## Pagination against a well-behaved server -/

theorem pageLoop_advance (env : Env) (c : Client) (playlistID : String) (T : ℚ)
    (pages : Nat → List String) (h : Answers env c playlistID T pages) (fuel : Nat) :
    ∀ (d k : Nat) (log : List Request),
      (∀ j, k ≤ j → j < k + d → ((linksAfter pages (j + 1)).length : ℚ) < T) →
      pageLoop env c playlistID (d + fuel) (limit * k) (linksAfter pages k) log
        = pageLoop env c playlistID fuel (limit * (k + d)) (linksAfter pages (k + d))
            (log ++ (List.range' k d).map (pageRequest c playlistID)) := by
  intro d
  induction d with
  | zero => intro k log _; simp
  | succ d ih =>
    intro k log hlt
    obtain ⟨hb, result, hr, hp⟩ := h k
    have hk : ¬ ((linksAfter pages k ++ pages k).length : ℚ) ≥ T :=
      not_le.mpr (hlt k (le_refl k) (by omega))
    have e : d + 1 + fuel = (d + fuel) + 1 := by omega
    rw [e, pageLoop]
    rw [pageRequest] at hb hr
    simp only [hb, hr, hp, Bool.not_true, Bool.false_eq_true, if_false, if_neg hk]
    have e2 : limit * k + limit = limit * (k + 1) := by ring
    rw [e2]
    have := ih (k + 1) (log ++ [Request.playlistPage playlistID limit (limit * k) c.accessToken])
      (fun j h1 h2 => hlt j (by omega) (by omega))
    rw [linksAfter] at this
    rw [this]
    have e3 : k + 1 + d = k + (d + 1) := by omega
    rw [e3]
    simp [List.range'_succ, pageRequest]

theorem pageLoop_finish (env : Env) (c : Client) (playlistID : String) (T : ℚ)
    (pages : Nat → List String) (h : Answers env c playlistID T pages) (fuel k : Nat)
    (log : List Request) (hge : ((linksAfter pages (k + 1)).length : ℚ) ≥ T) :
    pageLoop env c playlistID (fuel + 1) (limit * k) (linksAfter pages k) log
      = (Outcome.ok (linksAfter pages (k + 1)), log ++ [pageRequest c playlistID k]) := by
  obtain ⟨hb, result, hr, hp⟩ := h k
  rw [pageLoop]
  rw [pageRequest] at hb hr
  rw [linksAfter] at hge
  simp only [hb, hr, hp, Bool.not_true, Bool.false_eq_true, if_false, if_pos hge]
  rfl

/-- The run of the loop when the links first reach the total after page `n`: `n + 1`
requests, and the links of those pages are returned. -/
theorem pageLoop_run (env : Env) (c : Client) (playlistID : String) (T : ℚ)
    (pages : Nat → List String) (h : Answers env c playlistID T pages) (n fuel : Nat)
    (log : List Request) (hfuel : n + 1 ≤ fuel)
    (hlt : ∀ j, j < n → ((linksAfter pages (j + 1)).length : ℚ) < T)
    (hge : ((linksAfter pages (n + 1)).length : ℚ) ≥ T) :
    pageLoop env c playlistID fuel 0 [] log
      = (Outcome.ok (linksAfter pages (n + 1)),
          log ++ (List.range (n + 1)).map (pageRequest c playlistID)) := by
  obtain ⟨f, rfl⟩ : ∃ f, fuel = n + (f + 1) := ⟨fuel - (n + 1), by omega⟩
  have h1 := pageLoop_advance env c playlistID T pages h (f + 1) n 0 log
    (fun j _ hj => hlt j (by omega))
  simp only [Nat.mul_zero, linksAfter, Nat.zero_add] at h1
  rw [h1, pageLoop_finish env c playlistID T pages h f n _ hge]
  simp [List.range_succ, List.range_eq_range']

/-- The loop never leaves when the links stay below the total. -/
theorem pageLoop_never_leaves (env : Env) (c : Client) (playlistID : String) (T : ℚ)
    (pages : Nat → List String) (h : Answers env c playlistID T pages) (fuel : Nat)
    (log : List Request) (hlt : ∀ j, ((linksAfter pages (j + 1)).length : ℚ) < T) :
    pageLoop env c playlistID fuel 0 [] log
      = (Outcome.running, log ++ (List.range fuel).map (pageRequest c playlistID)) := by
  have h1 := pageLoop_advance env c playlistID T pages h 0 fuel 0 log (fun j _ _ => hlt j)
  simp only [Nat.mul_zero, linksAfter, Nat.zero_add, Nat.add_zero] at h1
  rw [h1, pageLoop, List.range_eq_range']

theorem appendItems_of_carries (items : List JSON) (page : List String)
    (h : List.Forall₂ CarriesURL items page) (acc : List String) :
    appendItems acc items = some (acc ++ page) := by
  induction h generalizing acc with
  | nil => simp [appendItems]
  | cons hc _ ih =>
    obtain ⟨m, track, urls, rfl, h1, h2, h3⟩ := hc
    rw [appendItems]
    simp only [appendItem, JSON.asObject, JSON.asString, h1, h2, h3]
    rw [ih]
    simp

theorem answers_of_serves (env : Env) (c : Client) (playlistID : String) (urls : List String)
    (h : ServesPlaylist env playlistID urls) :
    Answers env c playlistID urls.length (fun k => (urls.drop (limit * k)).take limit) := by
  intro k
  obtain ⟨hb, result, items, hr, ht, hi, hf⟩ := h (limit * k) c.accessToken
  refine ⟨hb, result, hr, fun acc => ?_⟩
  simp only [readPage, ht, hi, JSON.asNumber, JSON.asArray, Option.getD_some,
    appendItems_of_carries items _ hf acc]

theorem linksAfter_take (urls : List String) (k : Nat) :
    linksAfter (fun k => (urls.drop (limit * k)).take limit) k = urls.take (limit * k) := by
  induction k with
  | zero => simp [linksAfter]
  | succ k ih =>
    rw [linksAfter, ih, Nat.mul_succ, List.take_add]

theorem pageOffsets_pages (c : Client) (playlistID : String) (pre : List Request) (n : Nat)
    (hpre : pageOffsets pre = []) :
    pageOffsets (pre ++ (List.range n).map (pageRequest c playlistID))
      = (List.range n).map (fun k => 100 * k) := by
  unfold pageOffsets at hpre ⊢
  rw [List.filterMap_append, hpre, List.nil_append, List.filterMap_map]
  rw [← List.filterMap_eq_map]
  rfl

/-- The loop of `GetPlaylistTracks` against a well-behaved server. -/
theorem pageLoop_serves (env : Env) (c : Client) (playlistID : String) (urls : List String)
    (h : ServesPlaylist env playlistID urls) (fuel : Nat) (log : List Request)
    (hfuel : max 1 ((urls.length + 99) / 100) ≤ fuel) :
    pageLoop env c playlistID fuel 0 [] log
      = (Outcome.ok urls,
          log ++ (List.range (max 1 ((urls.length + 99) / 100))).map
            (pageRequest c playlistID)) := by
  have hn : max 1 ((urls.length + 99) / 100) = (urls.length - 1) / 100 + 1 := by omega
  rw [hn] at hfuel ⊢
  have hA := answers_of_serves env c playlistID urls h
  have hrun := pageLoop_run env c playlistID urls.length _ hA ((urls.length - 1) / 100) fuel log
    hfuel
    (by
      intro j hj
      rw [linksAfter_take, List.length_take]
      have : limit * (j + 1) < urls.length := by unfold limit; omega
      exact_mod_cast (by omega : min (limit * (j + 1)) urls.length < urls.length))
    (by
      rw [linksAfter_take, List.length_take]
      have : urls.length ≤ limit * ((urls.length - 1) / 100 + 1) := by unfold limit; omega
      exact_mod_cast (by omega : min (limit * ((urls.length - 1) / 100 + 1)) urls.length
        ≥ urls.length))
  rw [hrun, linksAfter_take]
  have : urls.length ≤ limit * ((urls.length - 1) / 100 + 1) := by unfold limit; omega
  rw [List.take_of_length_le this]

/-- C2. Against a well-behaved server holding `T` tracks with string URLs, for a reference
with the web prefix and a non-empty id and a client that holds a token or obtains one,
`GetPlaylistTracks` returns the `T` URLs in the server's order, and its page requests are
`max 1 (ceil (T / 100))` in number, at the offsets 0, 100, 200, ... in that order, as soon
as the fuel allows that many passes. -/
theorem GetPlaylistTracks_pagination (env : Env) (c : Client) (rawURL : String)
    (urls : List String) (fuel : Nat)
    (hweb : ∃ rest : String, rawURL = spotifyWebURL ++ rest)
    (hid : GetPlaylistID rawURL ≠ "")
    (htok : c.accessToken ≠ "" ∨ (refreshAccessToken env c []).1 = none)
    (hserve : ServesPlaylist env (GetPlaylistID rawURL) urls)
    (hfuel : max 1 ((urls.length + 99) / 100) ≤ fuel) :
    (GetPlaylistTracks env fuel c rawURL).1 = Outcome.ok urls ∧
      pageOffsets (GetPlaylistTracks env fuel c rawURL).2.2
        = (List.range (max 1 ((urls.length + 99) / 100))).map (fun k => 100 * k) ∧
      (pageOffsets (GetPlaylistTracks env fuel c rawURL).2.2).length
        = max 1 ((urls.length + 99) / 100) := by
  have hb : HasPrefix rawURL spotifyWebURL = true := (HasPrefix_iff _ _).mpr hweb
  have key : ∀ (c1 : Client) (log1 : List Request), pageOffsets log1 = [] →
      (if c.accessToken = "" then refreshAccessToken env c [] else (none, c, []))
        = (none, c1, log1) →
      (GetPlaylistTracks env fuel c rawURL).1 = Outcome.ok urls ∧
        pageOffsets (GetPlaylistTracks env fuel c rawURL).2.2
          = (List.range (max 1 ((urls.length + 99) / 100))).map (fun k => 100 * k) := by
    intro c1 log1 hlog hc1
    have hG : GetPlaylistTracks env fuel c rawURL
        = (Outcome.ok urls, c1, log1 ++ (List.range (max 1 ((urls.length + 99) / 100))).map
            (pageRequest c1 (GetPlaylistID rawURL))) := by
      rw [GetPlaylistTracks]
      simp only [hb, Bool.not_true, Bool.false_eq_true, if_false, hc1, if_neg hid,
        pageLoop_serves env c1 _ urls hserve fuel log1 hfuel]
    rw [hG]
    exact ⟨rfl, pageOffsets_pages c1 _ log1 _ hlog⟩
  have main : (GetPlaylistTracks env fuel c rawURL).1 = Outcome.ok urls ∧
      pageOffsets (GetPlaylistTracks env fuel c rawURL).2.2
        = (List.range (max 1 ((urls.length + 99) / 100))).map (fun k => 100 * k) := by
    by_cases ht : c.accessToken = ""
    · have hr : (refreshAccessToken env c []).1 = none := htok.resolve_left (fun h => h ht)
      have hlog : pageOffsets (refreshAccessToken env c []).2.2 = [] := by
        unfold refreshAccessToken
        dsimp only
        repeat' split
        all_goals rfl
      refine key (refreshAccessToken env c []).2.1 (refreshAccessToken env c []).2.2 hlog ?_
      rw [if_pos ht, ← hr]
    · exact key c [] rfl (by rw [if_neg ht])
  refine ⟨main.1, main.2, ?_⟩
  rw [main.2, List.length_map, List.length_range]

theorem carries_trackEntry (urls : List String) :
    List.Forall₂ CarriesURL (urls.map trackEntry) urls := by
  induction urls with
  | nil => exact List.Forall₂.nil
  | cons u us ih =>
    exact List.Forall₂.cons ⟨_, _, _, rfl, rfl, rfl, rfl⟩ ih

theorem stableServer_serves (urls : List String) (playlistID : String) :
    ServesPlaylist (stableServer (urls.map trackEntry)) playlistID urls := by
  intro offset bearer
  refine ⟨rfl, _, _, rfl, ?_, rfl, ?_⟩
  · simp [index, List.lookup]
  · rw [← List.map_drop, ← List.map_take]
    exact carries_trackEntry _

/-- The witness of C2: 250 tracks are fetched with 3 page requests, at 0, 100 and 200. -/
theorem GetPlaylistTracks_pagination_witness :
    (GetPlaylistTracks (stableServer ((List.replicate 250 "u").map trackEntry)) 3
        (Client.mk "id" "secret" "tok") "https://open.spotify.com/playlist/PID").1
          = Outcome.ok (List.replicate 250 "u") ∧
      pageOffsets (GetPlaylistTracks (stableServer ((List.replicate 250 "u").map trackEntry)) 3
        (Client.mk "id" "secret" "tok") "https://open.spotify.com/playlist/PID").2.2
          = [0, 100, 200] :=
  have h := GetPlaylistTracks_pagination (stableServer ((List.replicate 250 "u").map trackEntry))
    (Client.mk "id" "secret" "tok") "https://open.spotify.com/playlist/PID"
    (List.replicate 250 "u") 3 ⟨"playlist/PID", by decide⟩ (by decide) (Or.inl (by decide))
    (stableServer_serves _ _) (by rw [List.length_replicate]; decide)
  ⟨h.1, h.2.1.trans (by rw [List.length_replicate]; decide)⟩

/-! ## The session -/

theorem sample_drew (tracks : List String) (st : Session) (rnd : List Nat) (t : String)
    (st1 : Session) (rest : List Nat) (h : sample tracks st rnd = Step.drew t st1 rest) :
    t ∈ tracks ∧ t ∉ st.played ∧
      st1 = { played := t :: st.played, remaining := st.remaining - 1 } := by
  induction rnd with
  | nil => simp [sample] at h
  | cons r rs ih =>
    rw [sample] at h
    split at h
    · simp at h
    · rename_i track htrack
      split at h
      · exact ih h
      · rename_i hnot
        injection h with h1 h2 h3
        subst h1
        exact ⟨List.getElem?_mem htrack, hnot, h2.symm⟩

theorem drawNext_drew (tracks : List String) (st : Session) (rnd : List Nat) (t : String)
    (st1 : Session) (rest : List Nat) (h : drawNext tracks st rnd = Step.drew t st1 rest)
    (hinv : SessionInv tracks st) :
    t ∈ tracks ∧ t ∉ st.played ∧ st1.played = t :: st.played ∧ SessionInv tracks st1 := by
  rw [drawNext] at h
  split at h
  · simp at h
  · obtain ⟨h1, h2, rfl⟩ := sample_drew tracks st rnd t st1 rest h
    obtain ⟨i1, i2, i3⟩ := hinv
    refine ⟨h1, h2, rfl, List.nodup_cons.mpr ⟨h2, i1⟩, ?_, ?_⟩
    · intro x hx
      rcases List.mem_cons.mp hx with rfl | hx
      · exact h1
      · exact i2 x hx
    · simp only [List.length_cons, i3]
      push_cast
      ring

theorem drawMany_spec (tracks : List String) :
    ∀ (n : Nat) (st : Session) (rnd : List Nat) (drawn : List String) (st1 : Session)
      (rest : List Nat), drawMany tracks n st rnd = some (drawn, st1, rest) →
      SessionInv tracks st →
      SessionInv tracks st1 ∧ drawn.length = n ∧ st1.played = drawn.reverse ++ st.played := by
  intro n
  induction n with
  | zero =>
    intro st rnd drawn st1 rest h hinv
    simp only [drawMany, Option.some.injEq, Prod.mk.injEq] at h
    obtain ⟨rfl, rfl, _⟩ := h
    exact ⟨hinv, rfl, rfl⟩
  | succ n ih =>
    intro st rnd drawn st1 rest h hinv
    rw [drawMany] at h
    split at h
    · rename_i track st2 rest2 hstep
      split at h
      · rename_i drawn2 st3 rest3 hrec
        simp only [Option.some.injEq, Prod.mk.injEq] at h
        obtain ⟨rfl, rfl, rfl⟩ := h
        obtain ⟨_, _, hp, hinv2⟩ := drawNext_drew tracks st rnd track st2 rest2 hstep hinv
        obtain ⟨j1, j2, j3⟩ := ih st2 rest2 drawn2 _ _ hrec hinv2
        refine ⟨j1, by simp [j2], ?_⟩
        rw [j3, hp]
        simp
      · simp at h
    · simp at h

theorem sessionInv_start (tracks : List String) : SessionInv tracks (Session.start tracks) := by
  refine ⟨List.nodup_nil, ?_, ?_⟩
  · intro t ht; simp [Session.start] at ht
  · simp [Session.start]

/-- A run of `N` requests that all draw: the tracks drawn are a permutation of the list
without repeats, the remaining count is 0 and the next request takes the branch "no more
songs". -/
theorem drawMany_full_run (tracks : List String) (rnd : List Nat)
    (drawn : List String) (st : Session) (rest : List Nat)
    (hrun : drawMany tracks tracks.length (Session.start tracks) rnd = some (drawn, st, rest)) :
    drawn.Perm tracks ∧ drawn.Nodup ∧ tracks.Nodup ∧ (∀ t ∈ tracks, drawn.count t = 1) ∧
      st.remaining = 0 ∧ ∀ more : List Nat, drawNext tracks st more = Step.noMoreSongs := by
  obtain ⟨⟨i1, i2, i3⟩, hlen, hplayed⟩ :=
    drawMany_spec tracks _ _ _ _ _ _ hrun (sessionInv_start tracks)
  simp only [Session.start, List.append_nil] at hplayed
  have hnd : drawn.Nodup := by
    rw [hplayed] at i1
    exact List.nodup_reverse.mp i1
  have hsub : drawn ⊆ tracks := by
    intro t ht
    exact i2 t (by rw [hplayed]; exact List.mem_reverse.mpr ht)
  have hperm : drawn.Perm tracks :=
    (List.subperm_of_subset hnd hsub).perm_of_length_le (le_of_eq hlen.symm)
  have hrem : st.remaining = 0 := by
    rw [i3, hplayed, List.length_reverse, hlen]
    simp
  refine ⟨hperm, hnd, hperm.nodup_iff.mp hnd, ?_, hrem, ?_⟩
  · intro t ht
    exact List.count_eq_one_of_mem hnd (hperm.mem_iff.mpr ht)
  · intro more
    simp [drawNext, hrem]

/-- With indices below the length the sampling loop either uses up its indices without
leaving or leaves with a track, and the indices left over are below the length too. -/
theorem sample_sampling_or_drew (tracks : List String) (st : Session) (rnd : List Nat)
    (hrange : ∀ r ∈ rnd, r < tracks.length) :
    sample tracks st rnd = Step.sampling ∨
      ∃ (t : String) (st1 : Session) (rest : List Nat),
        sample tracks st rnd = Step.drew t st1 rest ∧ ∀ r ∈ rest, r < tracks.length := by
  induction rnd with
  | nil => exact Or.inl rfl
  | cons r rs ih =>
    have hr : r < tracks.length := hrange r (List.mem_cons_self r rs)
    have hrs : ∀ x ∈ rs, x < tracks.length := fun x hx => hrange x (List.mem_cons_of_mem r hx)
    rw [sample, List.getElem?_eq_getElem hr]
    by_cases hp : tracks[r] ∈ st.played
    · simp only [if_pos hp]
      exact ih hrs
    · simp only [if_neg hp]
      exact Or.inr ⟨_, _, _, rfl, hrs⟩

/-- While fewer references are played than the list holds, the branch "no more songs" is
not taken: a request samples, and with indices below the length it draws unless its
sampling loop uses up the indices. -/
theorem drawNext_sampling_or_drew (tracks : List String) (st : Session) (rnd : List Nat)
    (hinv : SessionInv tracks st) (hless : st.played.length < tracks.length)
    (hrange : ∀ r ∈ rnd, r < tracks.length) :
    drawNext tracks st rnd = Step.sampling ∨
      ∃ (t : String) (st1 : Session) (rest : List Nat),
        drawNext tracks st rnd = Step.drew t st1 rest ∧ ∀ r ∈ rest, r < tracks.length := by
  have hne : ¬ st.remaining = 0 := by
    rw [hinv.2.2]
    omega
  rw [drawNext, if_neg hne]
  exact sample_sampling_or_drew tracks st rnd hrange

/-- When no sampling loop of the first `n` requests is left unfinished and `n` references
are still unplayed, all `n` requests draw. -/
theorem drawMany_of_finishing (tracks : List String) :
    ∀ (n : Nat) (st : Session) (rnd : List Nat), SessionInv tracks st →
      st.played.length + n ≤ tracks.length → (∀ r ∈ rnd, r < tracks.length) →
      Step.sampling ∉ requests tracks n st rnd →
      ∃ (drawn : List String) (st1 : Session) (rest : List Nat),
        drawMany tracks n st rnd = some (drawn, st1, rest) := by
  intro n
  induction n with
  | zero => intro st rnd _ _ _ _; exact ⟨[], st, rnd, rfl⟩
  | succ n ih =>
    intro st rnd hinv hle hrange hfin
    rcases drawNext_sampling_or_drew tracks st rnd hinv (by omega) hrange with
      hs | ⟨t, st1, rest, hd, hrest⟩
    · exact absurd (by simp [requests, hs]) hfin
    · obtain ⟨_, _, hp, hinv1⟩ := drawNext_drew tracks st rnd t st1 rest hd hinv
      have hfin1 : Step.sampling ∉ requests tracks n st1 rest := by
        intro hmem
        exact hfin (by simp [requests, hd, hmem])
      obtain ⟨drawn, st2, rest2, h2⟩ :=
        ih st1 rest hinv1 (by rw [hp, List.length_cons]; omega) hrest hfin1
      exact ⟨t :: drawn, st2, rest2, by simp [drawMany, hd, h2]⟩

/-- The steps of a run of `n` requests that all draw are `n` draws. -/
theorem requests_of_drawMany (tracks : List String) :
    ∀ (n : Nat) (st : Session) (rnd : List Nat) (drawn : List String) (st1 : Session)
      (rest : List Nat), drawMany tracks n st rnd = some (drawn, st1, rest) →
      (requests tracks n st rnd).length = n ∧
        ∀ s ∈ requests tracks n st rnd, ∃ t st2 rest2, s = Step.drew t st2 rest2 := by
  intro n
  induction n with
  | zero => intro st rnd drawn st1 rest _; simp [requests]
  | succ n ih =>
    intro st rnd drawn st1 rest h
    rw [drawMany] at h
    split at h
    · rename_i track st2 rest2 hstep
      split at h
      · rename_i drawn2 st3 rest3 hrec
        obtain ⟨j1, j2⟩ := ih st2 rest2 drawn2 st3 rest3 hrec
        simp only [requests, hstep, List.length_cons, j1, List.mem_cons, true_and]
        rintro s (rfl | hs)
        · exact ⟨_, _, _, rfl⟩
        · exact j2 s hs
      · simp at h
    · simp at h

/-- C1. For a track list of `N` references and random indices below `N` under which no
sampling loop of the first `N` requests is left unfinished, each of the first `N`
requests draws (none takes the branch "no more songs"), the tracks drawn are a
permutation of the list without repeats, so every reference is returned exactly once,
the remaining count is then 0 and the next request, whatever the random indices, takes
the branch "no more songs" instead of drawing. Distinctness of the list need not be
assumed: it follows, since on a list with a repeat some sampling loop is left
unfinished. -/
theorem draw_without_replacement (tracks : List String) (rnd : List Nat)
    (hrange : ∀ r ∈ rnd, r < tracks.length)
    (hfinish : Step.sampling ∉ requests tracks tracks.length (Session.start tracks) rnd) :
    ∃ (drawn : List String) (st : Session) (rest : List Nat),
      drawMany tracks tracks.length (Session.start tracks) rnd = some (drawn, st, rest) ∧
        (requests tracks tracks.length (Session.start tracks) rnd).length = tracks.length ∧
        (∀ s ∈ requests tracks tracks.length (Session.start tracks) rnd,
          s ≠ Step.noMoreSongs) ∧
        drawn.Perm tracks ∧ drawn.Nodup ∧ tracks.Nodup ∧
        (∀ t ∈ tracks, drawn.count t = 1) ∧ st.remaining = 0 ∧
        ∀ more : List Nat, drawNext tracks st more = Step.noMoreSongs := by
  obtain ⟨drawn, st, rest, hrun⟩ :=
    drawMany_of_finishing tracks tracks.length (Session.start tracks) rnd
      (sessionInv_start tracks) (by simp [Session.start]) hrange hfinish
  obtain ⟨hlen, hdrew⟩ := requests_of_drawMany tracks _ _ _ _ _ _ hrun
  refine ⟨drawn, st, rest, hrun, hlen, ?_, drawMany_full_run tracks rnd drawn st rest hrun⟩
  intro s hs hno
  obtain ⟨t, st2, rest2, rfl⟩ := hdrew s hs
  cases hno

theorem draw_without_replacement_witness :
    (∀ r ∈ [1, 1, 0, 1, 2, 0], r < ["a", "b", "c"].length) ∧
      Step.sampling ∉ requests ["a", "b", "c"] 3 (Session.start ["a", "b", "c"])
        [1, 1, 0, 1, 2, 0] ∧
      drawMany ["a", "b", "c"] 3 (Session.start ["a", "b", "c"]) [1, 1, 0, 1, 2, 0]
        = some (["b", "a", "c"], Session.mk ["c", "a", "b"] 0, [0]) ∧
      ∃ (drawn : List String) (st : Session) (rest : List Nat),
        drawMany ["a", "b", "c"] 3 (Session.start ["a", "b", "c"]) [1, 1, 0, 1, 2, 0]
          = some (drawn, st, rest) ∧
        drawn.Perm ["a", "b", "c"] ∧ st.remaining = 0 ∧
        drawNext ["a", "b", "c"] st [0] = Step.noMoreSongs := by
  refine ⟨by decide, by decide, by decide, ?_⟩
  obtain ⟨drawn, st, rest, h1, _, _, h2, _, _, _, h3, h4⟩ :=
    draw_without_replacement ["a", "b", "c"] [1, 1, 0, 1, 2, 0] (by decide) (by decide)
  exact ⟨drawn, st, rest, h1, h2, h3, h4 [0]⟩

/-- For a list of distinct references the indices 0, 1, ..., N - 1 make the first `N`
requests draw the list in order. -/
theorem drawMany_in_order_from (suf pre : List String) (h : (pre ++ suf).Nodup) :
    drawMany (pre ++ suf) suf.length (Session.mk pre.reverse suf.length)
        (List.range' pre.length suf.length)
      = some (suf, Session.mk (pre ++ suf).reverse 0, []) := by
  induction suf generalizing pre with
  | nil => simp [drawMany]
  | cons x xs ih =>
    have hx : x ∉ pre := by
      intro hm
      exact (List.nodup_append.mp h).2.2 hm (List.mem_cons_self x xs)
    have hget : (pre ++ x :: xs)[pre.length]? = some x := by
      rw [List.getElem?_append_right (le_refl _)]
      simp
    have hne : ¬ (((x :: xs).length : Nat) : Int) = 0 := by
      simp only [List.length_cons]
      omega
    have e : pre ++ x :: xs = (pre ++ [x]) ++ xs := by simp
    have ih2 := ih (pre ++ [x]) (e ▸ h)
    rw [← e] at ih2
    simp only [List.length_append, List.length_singleton, List.reverse_append,
      List.reverse_cons, List.reverse_nil, List.nil_append, List.singleton_append] at ih2
    rw [List.length_cons, List.range'_succ, drawMany, drawNext]
    simp only [List.length_cons] at hne
    simp only [if_neg hne, sample, hget, List.mem_reverse, hx, if_false]
    have e2 : ((xs.length + 1 : Nat) : Int) - 1 = (xs.length : Int) := by push_cast; ring
    rw [e2, ih2]
    simp

theorem drawMany_in_order (tracks : List String) (h : tracks.Nodup) :
    drawMany tracks tracks.length (Session.start tracks) (List.range tracks.length)
      = some (tracks, Session.mk tracks.reverse 0, []) := by
  have := drawMany_in_order_from tracks [] (by simpa using h)
  simpa [Session.start, List.range_eq_range'] using this

/-- For every list of distinct references there are indices below the length under which
no sampling loop of the first `N` requests is left unfinished. -/
theorem finishing_run_exists (tracks : List String) (h : tracks.Nodup) :
    (∀ r ∈ List.range tracks.length, r < tracks.length) ∧
      Step.sampling ∉
        requests tracks tracks.length (Session.start tracks) (List.range tracks.length) := by
  refine ⟨fun r hr => List.mem_range.mp hr, fun hmem => ?_⟩
  obtain ⟨_, hdrew⟩ := requests_of_drawMany tracks _ _ _ _ _ _ (drawMany_in_order tracks h)
  obtain ⟨t, st2, rest2, he⟩ := hdrew _ hmem
  cases he

/-! ## Duplicate references -/

theorem sample_all_played (tracks : List String) (st : Session)
    (hall : ∀ t ∈ tracks, t ∈ st.played) (rnd : List Nat)
    (hrange : ∀ r ∈ rnd, r < tracks.length) : sample tracks st rnd = Step.sampling := by
  induction rnd with
  | nil => rfl
  | cons r rs ih =>
    have hr : r < tracks.length := hrange r (List.mem_cons_self r rs)
    rw [sample, List.getElem?_eq_getElem hr]
    simp only [if_pos (hall _ (List.getElem_mem hr))]
    exact ih (fun x hx => hrange x (List.mem_cons_of_mem r hx))

theorem dedup_length_lt (tracks : List String) (h : ¬ tracks.Nodup) :
    tracks.dedup.length < tracks.length := by
  rcases Nat.lt_or_ge tracks.dedup.length tracks.length with hlt | hge
  · exact hlt
  · have heq : tracks.dedup = tracks := (List.dedup_sublist tracks).eq_of_length_le hge
    exact absurd (heq ▸ List.nodup_dedup tracks) h

/-- C10. For a track list in which some reference occurs more than once, in any session
state reached by draws in which every reference of the list has been played, the
remaining count is the length of the list minus the number of distinct references, which
is greater than 0, every index of the list holds a played reference, and for every
sequence of random indices below the length the next request does not take the branch
"no more songs" and its sampling loop uses up the whole sequence without selecting a
track. -/
theorem duplicates_stall (tracks : List String) (k : Nat) (rnd : List Nat)
    (drawn : List String) (st : Session) (rest : List Nat) (hdup : ¬ tracks.Nodup)
    (hrun : drawMany tracks k (Session.start tracks) rnd = some (drawn, st, rest))
    (hall : ∀ t ∈ tracks, t ∈ drawn) :
    st.remaining = (tracks.length : Int) - tracks.dedup.length ∧ 0 < st.remaining ∧
      (∀ (i : Nat) (hi : i < tracks.length), tracks[i] ∈ st.played) ∧
      ∀ more : List Nat, (∀ r ∈ more, r < tracks.length) →
        drawNext tracks st more = Step.sampling := by
  obtain ⟨⟨i1, i2, i3⟩, _, hplayed⟩ :=
    drawMany_spec tracks _ _ _ _ _ _ hrun (sessionInv_start tracks)
  simp only [Session.start, List.append_nil] at hplayed
  have hall2 : ∀ t ∈ tracks, t ∈ st.played := by
    intro t ht
    rw [hplayed]
    exact List.mem_reverse.mpr (hall t ht)
  have hperm : st.played.Perm tracks.dedup :=
    (List.perm_ext_iff_of_nodup i1 (List.nodup_dedup tracks)).mpr
      (fun a => ⟨fun h => List.mem_dedup.mpr (i2 a h), fun h => hall2 a (List.mem_dedup.mp h)⟩)
  have hrem : st.remaining = (tracks.length : Int) - tracks.dedup.length := by
    rw [i3, hperm.length_eq]
  have hpos : 0 < st.remaining := by
    have := dedup_length_lt tracks hdup
    rw [hrem]
    omega
  refine ⟨hrem, hpos, fun i hi => hall2 _ (List.getElem_mem hi), ?_⟩
  intro more hmore
  rw [drawNext, if_neg (ne_of_gt hpos)]
  exact sample_all_played tracks st hall2 more hmore

theorem duplicates_stall_witness :
    drawMany ["a", "b", "a"] 2 (Session.start ["a", "b", "a"]) [1, 1, 0, 2]
        = some (["b", "a"], Session.mk ["a", "b"] 1, [2]) ∧
      (Session.mk ["a", "b"] 1).remaining = 1 ∧
      drawNext ["a", "b", "a"] (Session.mk ["a", "b"] 1) [2, 0, 1, 1, 2] = Step.sampling :=
  have h := duplicates_stall ["a", "b", "a"] 2 [1, 1, 0, 2] ["b", "a"] (Session.mk ["a", "b"] 1)
    [2] (by decide) (by decide) (by decide)
  ⟨by decide, h.1.trans (by decide), h.2.2.2 [2, 0, 1, 1, 2] (by decide)⟩

/-! ## Skipped entries, in general -/

theorem appendItem_shape (item : JSON) :
    (∀ acc, appendItem acc item = none) ∨
      ∃ l : List String, l.length ≤ 1 ∧ ∀ acc, appendItem acc item = some (acc ++ l) := by
  cases h1 : item.asObject with
  | none => exact Or.inl (fun acc => by simp [appendItem, h1])
  | some m =>
    cases h2 : (index m "track").asObject with
    | none => exact Or.inr ⟨[], by simp, fun acc => by simp [appendItem, h1, h2]⟩
    | some track =>
      cases h3 : (index track "external_urls").asObject with
      | none => exact Or.inl (fun acc => by simp [appendItem, h1, h2, h3])
      | some urls =>
        cases h4 : (index urls "spotify").asString with
        | none => exact Or.inr ⟨[], by simp, fun acc => by simp [appendItem, h1, h2, h3, h4]⟩
        | some url =>
          exact Or.inr ⟨[url], by simp, fun acc => by simp [appendItem, h1, h2, h3, h4]⟩

theorem appendItems_shape (items : List JSON) :
    (∀ acc, appendItems acc items = none) ∨
      ∃ l : List String, l.length ≤ items.length ∧
        ∀ acc, appendItems acc items = some (acc ++ l) := by
  induction items with
  | nil => exact Or.inr ⟨[], by simp, fun acc => by simp [appendItems]⟩
  | cons item rest ih =>
    rcases appendItem_shape item with h1 | ⟨l1, hl1, h1⟩
    · exact Or.inl (fun acc => by rw [appendItems, h1])
    · rcases ih with h2 | ⟨l2, hl2, h2⟩
      · exact Or.inl (fun acc => by rw [appendItems, h1]; exact h2 _)
      · refine Or.inr ⟨l1 ++ l2, by simp only [List.length_append, List.length_cons]; omega,
          fun acc => ?_⟩
        rw [appendItems, h1]
        simp only [h2, List.append_assoc]

theorem appendItems_append (a b : List JSON) (acc : List String) :
    appendItems acc (a ++ b) = (appendItems acc a).bind (fun l => appendItems l b) := by
  induction a generalizing acc with
  | nil => simp [appendItems]
  | cons x xs ih =>
    rw [List.cons_append, appendItems, appendItems]
    cases appendItem acc x with
    | none => rfl
    | some l => exact ih l

theorem appendItems_linksOf (items : List JSON) (links : List String)
    (h : appendItems [] items = some links) (acc : List String) :
    appendItems acc items = some (acc ++ links) := by
  rcases appendItems_shape items with h1 | ⟨l, _, h1⟩
  · rw [h1] at h; cases h
  · have := h1 []
    rw [h, List.nil_append] at this
    rw [h1 acc, Option.some.inj this]

theorem linksOf_parts (a b : List JSON) (links : List String)
    (h : appendItems [] (a ++ b) = some links) :
    appendItems [] a = some (linksOf a) ∧ appendItems [] b = some (linksOf b) ∧
      links = linksOf a ++ linksOf b := by
  rw [appendItems_append] at h
  cases ha : appendItems [] a with
  | none => rw [ha] at h; cases h
  | some la =>
    rw [ha] at h
    simp only [Option.some_bind] at h
    cases hb : appendItems [] b with
    | none =>
      rcases appendItems_shape b with h1 | ⟨l, _, h1⟩
      · rw [h1] at h; cases h
      · rw [h1] at hb; cases hb
    | some lb =>
      rw [appendItems_linksOf b lb hb la] at h
      simp only [linksOf, ha, hb, Option.getD_some]
      exact ⟨trivial, trivial, (Option.some.inj h).symm⟩

theorem linksOf_length_le (items : List JSON) : (linksOf items).length ≤ items.length := by
  unfold linksOf
  rcases appendItems_shape items with h1 | ⟨l, hl, h1⟩
  · rw [h1]; simp
  · rw [h1]; simpa using hl

theorem stableServer_answers (entries : List JSON) (links : List String) (c : Client)
    (playlistID : String) (h : appendItems [] entries = some links) :
    Answers (stableServer entries) c playlistID entries.length
      (fun k => linksOf ((entries.drop (limit * k)).take limit)) := by
  intro k
  refine ⟨rfl, _, rfl, fun acc => ?_⟩
  have e : entries = entries.take (limit * k)
      ++ ((entries.drop (limit * k)).take limit ++ (entries.drop (limit * k)).drop limit) := by
    rw [List.take_append_drop, List.take_append_drop]
  rw [e] at h
  obtain ⟨_, h2, _⟩ := linksOf_parts _ _ links h
  obtain ⟨h3, _, _⟩ := linksOf_parts _ _ _ h2
  have h4 := appendItems_linksOf _ _ h3 acc
  simp only [readPage, index, List.lookup, JSON.asNumber, JSON.asArray, Option.getD_some]
  simp [h4]

theorem linksAfter_linksOf (entries : List JSON) (links : List String)
    (h : appendItems [] entries = some links) (k : Nat) :
    linksAfter (fun k => linksOf ((entries.drop (limit * k)).take limit)) k
      = linksOf (entries.take (limit * k)) := by
  induction k with
  | zero => simp [linksAfter, linksOf, appendItems]
  | succ k ih =>
    rw [linksAfter, ih, Nat.mul_succ, List.take_add]
    have e : entries = (entries.take (limit * k) ++ (entries.drop (limit * k)).take limit)
        ++ entries.drop (limit * k + limit) := by
      rw [← List.take_add, List.take_append_drop]
    rw [e] at h
    obtain ⟨h2, _, _⟩ := linksOf_parts _ _ links h
    obtain ⟨_, _, h3⟩ := linksOf_parts _ _ _ h2
    exact h3.symm

/-- Against a stable server whose entries yield fewer links than the declared total (some
entry is skipped, none makes the loop panic), `GetPlaylistTracks` never returns: for
every amount of fuel it is still in its loop, having sent one page request per unit of
fuel. -/
theorem GetPlaylistTracks_skipping_never_returns (entries : List JSON) (links : List String)
    (c : Client) (rawURL : String) (fuel : Nat)
    (hweb : ∃ rest : String, rawURL = spotifyWebURL ++ rest)
    (hid : GetPlaylistID rawURL ≠ "") (htok : c.accessToken ≠ "")
    (hlinks : appendItems [] entries = some links) (hK : links.length < entries.length) :
    GetPlaylistTracks (stableServer entries) fuel c rawURL
      = (Outcome.running, c,
          (List.range fuel).map (pageRequest c (GetPlaylistID rawURL))) := by
  have hb : HasPrefix rawURL spotifyWebURL = true := (HasPrefix_iff _ _).mpr hweb
  have hrun := pageLoop_never_leaves (stableServer entries) c (GetPlaylistID rawURL)
    entries.length _ (stableServer_answers entries links c _ hlinks) fuel []
    (by
      intro j
      rw [linksAfter_linksOf entries links hlinks]
      have e : entries = entries.take (limit * (j + 1)) ++ entries.drop (limit * (j + 1)) :=
        (List.take_append_drop _ _).symm
      have h2 := hlinks
      rw [e] at h2
      obtain ⟨_, _, h3⟩ := linksOf_parts _ _ links h2
      have : (linksOf (entries.take (limit * (j + 1)))).length ≤ links.length := by
        rw [h3, List.length_append]; omega
      exact_mod_cast (by omega : (linksOf (entries.take (limit * (j + 1)))).length
        < entries.length))
  rw [GetPlaylistTracks]
  simp only [hb, Bool.not_true, Bool.false_eq_true, if_false, if_neg htok, if_neg hid, hrun,
    List.nil_append]

theorem GetPlaylistTracks_skipping_never_returns_witness :
    GetPlaylistTracks (stableServer [trackEntry "u", JSON.obj [("track", JSON.null)]]) 2
        (Client.mk "id" "secret" "tok") "https://open.spotify.com/playlist/PID"
      = (Outcome.running, Client.mk "id" "secret" "tok",
          [Request.playlistPage "PID" 100 0 "tok", Request.playlistPage "PID" 100 100 "tok"]) :=
  (GetPlaylistTracks_skipping_never_returns [trackEntry "u", JSON.obj [("track", JSON.null)]]
    ["u"] (Client.mk "id" "secret" "tok") "https://open.spotify.com/playlist/PID" 2
    ⟨"playlist/PID", by decide⟩ (by decide) (by decide) (by decide) (by decide)).trans
    (by decide)

end Temaster
